import Mathlib

/-!
# Verification of `generate_brand_cards.py`

A shallow embedding of the image-processing core of the brand-card
generator.  Images are modelled as a width, a height and a total pixel
function; 8-bit channels are plain naturals; Python floats are modelled
exactly by `ℚ` where the code only does field arithmetic and by `ℝ` where
the sRGB gamma power `2.4` appears.  Pillow primitives used by the script
(`thumbnail`, `resize`, `paste`, `Image.new`, `ImageDraw.rounded_rectangle`,
`ImageStat`) are modelled with their documented pixel-level semantics.  The
resampling filter of `thumbnail`/`resize` (LANCZOS in the source) gets two
complementary readings, each exact where it is used: grid subsampling
(`resample`), which agrees with any normalised filter on the constant
images exercised below and shares with the source's filter that a
downsampled image does not keep every original pixel; and a normalised
band-blending average (`resampleBox`), which shares with the source's
filter that downsampling can manufacture pixel values present nowhere in
the input.
-/

set_option autoImplicit false

namespace BrandCards

/-- One RGBA pixel; each channel is an 8-bit value `0..255` (the model does
not force the bound, functions only ever produce in-range values from
in-range inputs). -/
structure Pixel where
  r : Nat
  g : Nat
  b : Nat
  a : Nat
  deriving DecidableEq

/-- A color is an `(r, g, b)` triple, as the Python tuples returned by
`dominant_color` and consumed by `relative_luminance`. -/
abbrev Color := Nat × Nat × Nat

/-- The RGB part of a pixel. -/
def Pixel.rgb (p : Pixel) : Color := (p.r, p.g, p.b)

/-- An RGBA image: a pixel grid of the given dimensions.  `px x y` is the
pixel at column `x`, row `y`; the function is total, only arguments with
`x < width`, `y < height` correspond to actual pixels. -/
structure Img where
  width : Nat
  height : Nat
  px : Nat → Nat → Pixel

/-- The image of constant color, as produced by `PIL.Image.new` with a
fill color. -/
def constImg (w h : Nat) (p : Pixel) : Img := ⟨w, h, fun _ _ => p⟩

/-- Model of `img.getdata()`: the pixels in row-major order (rows top to bottom,
left to right within a row). -/
def getdata (img : Img) : List Pixel :=
  (List.range img.height).flatMap fun y => (List.range img.width).map fun x => img.px x y

/- ---------------------------------------------------------------------
`slugify` (source lines 35-39)

    value = value.strip().lower()
    value = re.sub(r"[^\w\s-]", "", value, flags=re.UNICODE)
    value = re.sub(r"[\s]+", "_", value)
    return value or "brand"

Strings are modelled as `List Char`.  The three character classifications
the source relies on — the `\w` class of `re.UNICODE` (Unicode word
characters), `str.lower()` and `\s`/`str.strip()` (Unicode whitespace) —
are parameters of the pipeline: the Unicode tables are not enumerated
here, and the charset theorem below is proved for every classification
satisfying facts true of the real ones.  A concrete ASCII instantiation
(`isWordC`, `Char.toLower`, `Char.isWhitespace`) is used to evaluate the
pipeline on the concrete inputs below, all of which are ASCII apart from
the trademark sign `™`, which is neither a word character nor whitespace
in both the ASCII and the Unicode reading, so the instantiation agrees
with the source on them.
--------------------------------------------------------------------- -/

/-- Model of `str.strip()` over an abstract whitespace class `isSp`:
remove leading and trailing whitespace. -/
def stripWith (isSp : Char → Bool) (l : List Char) : List Char :=
  ((l.dropWhile isSp).reverse.dropWhile isSp).reverse

/-- Model of the second substitution, `re.sub(r"[\s]+", "_", ·)`, over an
abstract whitespace class: replace every maximal whitespace run by a
single underscore.  The flag records whether we are inside a run. -/
def collapseWith (isSp : Char → Bool) : Bool → List Char → List Char
  | _, [] => []
  | inRun, c :: t =>
    if isSp c then
      if inRun then collapseWith isSp true t else '_' :: collapseWith isSp true t
    else c :: collapseWith isSp false t

/-- The function `slugify` on character lists, over an abstract word
class `isW` (the source's `\w` with `re.UNICODE`), lowering function
`lower` (the source's `str.lower()`) and whitespace class `isSp` (the
source's `\s`). -/
def slugifyWith (isW : Char → Bool) (lower : Char → Char) (isSp : Char → Bool)
    (l : List Char) : List Char :=
  let l1 := (stripWith isSp l).map lower
  let l2 := l1.filter fun c => isW c || isSp c || c == '-'
  let l3 := collapseWith isSp false l2
  if l3 = [] then "brand".data else l3

/-- ASCII instantiation of the `\w` word class: letters, digits,
underscore.  Exact on the ASCII range; the Unicode class additionally
contains non-ASCII word characters, which is why the theorems below are
stated over an abstract class instead. -/
def isWordC (c : Char) : Bool := c.isAlphanum || c == '_'

/-- The function `slugify` on character lists, instantiated with the
ASCII classifications (exact on the ASCII-plus-`™` inputs evaluated
below). -/
def slugifyChars (l : List Char) : List Char :=
  slugifyWith isWordC Char.toLower Char.isWhitespace l

/-- The function `slugify` on strings. -/
def slugify (s : String) : String := ⟨slugifyChars s.data⟩

/- ---------------------------------------------------------------------
`dominant_color` (source lines 83-99)

    small = img.copy(); small.thumbnail((64, 64), Image.LANCZOS)
    pixels = small.getdata(); histogram = {}
    for r, g, b, a in pixels:
        if a < 10: continue
        if r > 240 and g > 240 and b > 240: continue
        histogram[(r,g,b)] = histogram.get((r,g,b), 0) + 1
    if not histogram: return (245, 245, 245)
    return max(histogram.items(), key=lambda kv: kv[1])[0]

The Python dict iterates in first-insertion order and `max` keeps the
first item attaining the maximum, so the histogram is modelled by an
association list in first-insertion order and the maximum scan replaces
the current best only on a strictly larger count.
--------------------------------------------------------------------- -/

/-- Model of the `PIL.Image.thumbnail((64,64))` target size: images already fitting in
64×64 are left untouched; otherwise the size is shrunk preserving the
aspect ratio so the larger side becomes 64 (Pillow rounds the other side
to the nearest aspect-preserving value, modelled here as the floored
value clamped to at least 1). -/
def thumbSize (w h : Nat) : Nat × Nat :=
  if w ≤ 64 ∧ h ≤ 64 then (w, h)
  else if w ≤ h then (max 1 (64 * w / h), 64) else (64, max 1 (64 * h / w))

/-- Resampling to a new size, modelled as grid subsampling: output pixel
`(x, y)` samples the source pixel whose index is the floored preimage of
`(x, y)` under the scale change.  The source uses the LANCZOS filter,
which in addition blends neighbouring pixels; both readings agree on
constant images, and neither preserves every pixel when downsampling. -/
def resample (img : Img) (w' h' : Nat) : Img :=
  ⟨w', h', fun x y => img.px (x * img.width / w') (y * img.height / h')⟩

/-- The `small` image of `dominant_color`: the 64×64-bounded thumbnail. -/
def thumbnail64 (img : Img) : Img :=
  let wh := thumbSize img.width img.height
  if wh = (img.width, img.height) then img else resample img wh.1 wh.2

/-- The pixel filter of `dominant_color`: keep pixels that are visible
(`a ≥ 10`) and not near-white (not all three channels above 240). -/
def survives (p : Pixel) : Bool :=
  decide (¬ p.a < 10) && ! (decide (240 < p.r) && decide (240 < p.g) && decide (240 < p.b))

/-- Model of `histogram[key] = histogram.get(key, 0) + 1` on an association list in
first-insertion order. -/
def bump : List (Color × Nat) → Color → List (Color × Nat)
  | [], k => [(k, 1)]
  | (k', n) :: t, k => if k' = k then (k', n + 1) :: t else (k', n) :: bump t k

/-- One loop iteration of `dominant_color`: skip filtered pixels, count
the rest by exact RGB triple. -/
def histStep (h : List (Color × Nat)) (p : Pixel) : List (Color × Nat) :=
  if p.a < 10 then h
  else if 240 < p.r ∧ 240 < p.g ∧ 240 < p.b then h
  else bump h p.rgb

/-- Model of `max(items, key=count)`: scan keeping the first item attaining the
maximal count. -/
def maxKey : Color → Nat → List (Color × Nat) → Color
  | k, _, [] => k
  | k, n, (k', n') :: t => if n < n' then maxKey k' n' t else maxKey k n t

/-- The function `dominant_color` (source lines 83-99). -/
def dominant_color (img : Img) : Color :=
  let hist := (getdata (thumbnail64 img)).foldl histStep []
  match hist with
  | [] => (245, 245, 245)
  | (k, n) :: t => maxKey k n t

/- ---------------------------------------------------------------------
Luminance and contrast (source lines 101-112) are ℝ-valued because of the
sRGB gamma power `(· ** 2.4)`; see below after the geometry.
--------------------------------------------------------------------- -/

/- ---------------------------------------------------------------------
`recolor_to_white` (source lines 114-125): the `getdata` → per-pixel loop
→ `putdata` round trip rewrites each grid pixel in place, so it is
modelled as the pointwise map it performs (`convert("RGBA")` is the
identity on the RGBA images of this model).
--------------------------------------------------------------------- -/

/-- The function `recolor_to_white` (source lines 114-125). -/
def recolor_to_white (logo : Img) : Img :=
  ⟨logo.width, logo.height, fun x y =>
    let p := logo.px x y
    if p.a = 0 then p else ⟨255, 255, 255, p.a⟩⟩

/- ---------------------------------------------------------------------
`fit_logo` (source lines 127-133)

    target = int(canvas_size * max_ratio)
    w, h = logo.size
    scale = min(target / w, target / h)
    new_w, new_h = max(1, int(w * scale)), max(1, int(h * scale))
    return logo.resize((new_w, new_h), Image.LANCZOS)

Python float arithmetic is modelled exactly over `ℚ`; `int(·)` on the
non-negative values that occur is `Int.floor`.
--------------------------------------------------------------------- -/

/-- Model of `target = int(canvas_size * max_ratio)`. -/
def fitTarget (canvas : Nat) (mr : ℚ) : Nat := (⌊(canvas : ℚ) * mr⌋).toNat

/-- Model of `scale = min(target / w, target / h)`: the single uniform scale
factor of `fit_logo`. -/
def fitScale (w h canvas : Nat) (mr : ℚ) : ℚ :=
  min ((fitTarget canvas mr : ℚ) / (w : ℚ)) ((fitTarget canvas mr : ℚ) / (h : ℚ))

/-- The `(new_w, new_h)` computed by `fit_logo`: the same scale factor is
applied to both axes, floored (`int`) and clamped to at least 1. -/
def fitSize (w h canvas : Nat) (mr : ℚ) : Nat × Nat :=
  (max 1 (⌊(w : ℚ) * fitScale w h canvas mr⌋).toNat,
   max 1 (⌊(h : ℚ) * fitScale w h canvas mr⌋).toNat)

/-- The function `fit_logo` (source lines 127-133). -/
def fit_logo (logo : Img) (canvas : Nat) (mr : ℚ) : Img :=
  let wh := fitSize logo.width logo.height canvas mr
  resample logo wh.1 wh.2

/- ---------------------------------------------------------------------
`rounded_mask` (source lines 135-140) and pasting (`Image.paste` with a
mask).
--------------------------------------------------------------------- -/

/-- Membership in the filled rounded rectangle drawn by
`ImageDraw.rounded_rectangle([0,0,w,h], radius)` on a `w×h` canvas: a
pixel is inside when its distance to the clamped corner-centre point is
at most the radius (pixels in the central cross have distance 0). -/
def insideRounded (w h radius x y : Nat) : Bool :=
  let cx := min (max x radius) (w - 1 - radius)
  let cy := min (max y radius) (h - 1 - radius)
  let dx := max x cx - min x cx
  let dy := max y cy - min y cy
  decide (dx ^ 2 + dy ^ 2 ≤ radius ^ 2)

/-- The function `rounded_mask` (source lines 135-140): a single-channel mask, 255
inside the rounded rectangle and 0 outside (`ImageDraw` fills with hard,
unantialiased edges). -/
def rounded_mask (w h radius : Nat) : Nat → Nat → Nat :=
  fun x y => if insideRounded w h radius x y then 255 else 0

/-- One channel of Pillow's mask interpolation `(s·a + d·(255-a))/255`;
exact at the only mask values produced here, 0 (keep destination) and
255 (copy source). -/
def blendC (d s a : Nat) : Nat := (s * a + d * (255 - a) + 127) / 255

/-- Blend two pixels under a mask value. -/
def blendPx (d s : Pixel) (a : Nat) : Pixel :=
  ⟨blendC d.r s.r a, blendC d.g s.g a, blendC d.b s.b a, blendC d.a s.a a⟩

/-- Model of `dst.paste(src, (ox, oy), mask)`: inside the pasted rectangle the
destination is interpolated towards the source by the mask value (for the
RGBA-image masks of the source, the mask value is the alpha band);
outside it is unchanged. -/
def paste (dst src : Img) (ox oy : Nat) (mask : Nat → Nat → Nat) : Img :=
  ⟨dst.width, dst.height, fun x y =>
    if ox ≤ x ∧ x < ox + src.width ∧ oy ≤ y ∧ y < oy + src.height then
      blendPx (dst.px x y) (src.px (x - ox) (y - oy)) (mask (x - ox) (y - oy))
    else dst.px x y⟩

/-- Model of `ImageStat.Stat(logo.split()[0:3]).mean` followed by `int(·)` per
band: the per-channel mean of R, G, B over all pixels (alpha ignored),
truncated to an integer; the exact rational mean is floored, which is
what `int` does to the float mean whenever that float is exact (it is on
every image exercised below). -/
def avgColor (img : Img) : Color :=
  let ps := getdata img
  ((ps.map Pixel.r).sum / ps.length,
   (ps.map Pixel.g).sum / ps.length,
   (ps.map Pixel.b).sum / ps.length)

/- ---------------------------------------------------------------------
`relative_luminance` and `contrast_ratio` (source lines 101-112)

    def channel(c):
        c = c / 255.0
        return c / 12.92 if c <= 0.03928 else ((c + 0.055) / 1.055) ** 2.4
    return 0.2126*channel(r) + 0.7152*channel(g) + 0.0722*channel(b)

    L1, L2 = max(L1, L2), min(L1, L2)
    return (L1 + 0.05) / (L2 + 0.05)

Floats are modelled by `ℝ` (the power 2.4 is irrational-valued), so this
part of the development is noncomputable; every claim about it is either
quantifier-free or hypothesis-free, so no witness has to evaluate it.
--------------------------------------------------------------------- -/

open scoped Classical

noncomputable section

/-- The sRGB linearisation of one 8-bit channel. -/
def channel (c : Nat) : ℝ :=
  let x : ℝ := (c : ℝ) / 255
  if x ≤ 0.03928 then x / 12.92 else ((x + 0.055) / 1.055) ^ (2.4 : ℝ)

/-- The function `relative_luminance` (source lines 101-106). -/
def relative_luminance (rgb : Color) : ℝ :=
  0.2126 * channel rgb.1 + 0.7152 * channel rgb.2.1 + 0.0722 * channel rgb.2.2

/-- The function `contrast_ratio` (source lines 108-112); the final apostrophe avoids a
clash with the namespaced field notation. -/
def contrast_ratio' (c1 c2 : Color) : ℝ :=
  let l1 := relative_luminance c1
  let l2 := relative_luminance c2
  (max l1 l2 + 0.05) / (min l1 l2 + 0.05)

/- ---------------------------------------------------------------------
`make_card` (source lines 146-179), without the final `save` (pure core
only; `convert("RGBA")` is the identity here).  The Python default
`bg_rgb=(245,245,245)` together with the `if bg_rgb is None` branch is
modelled by an `Option Color` argument.
--------------------------------------------------------------------- -/

/-- The function `make_card` (source lines 146-179): rounded background, fitted logo,
contrast check against the background with recolor-to-white under 2.5,
centred paste. -/
def make_card (logo_img : Img) (bg? : Option Color) (canvas radius : Nat) : Img :=
  let bg_rgb := match bg? with
    | none => dominant_color logo_img
    | some c => c
  let card := constImg canvas canvas ⟨0, 0, 0, 0⟩
  let bg := constImg canvas canvas ⟨bg_rgb.1, bg_rgb.2.1, bg_rgb.2.2, 255⟩
  let card1 := paste card bg 0 0 (rounded_mask canvas canvas radius)
  let logo := fit_logo logo_img canvas (62 / 100 : ℚ)
  let avg_rgb := avgColor logo
  let cr := contrast_ratio' avg_rgb bg_rgb
  let logo1 := if cr < 2.5 then recolor_to_white logo else logo
  let x := (canvas - logo1.width) / 2
  let y := (canvas - logo1.height) / 2
  paste card1 logo1 x y (fun i j => (logo1.px i j).a)

end

/- ---------------------------------------------------------------------
The batch driver (`main`, source lines 185-269): only the part the claims
are about is modelled — the required-column validation (lines 197-206)
which terminates the run with exit status 1 before any download or
rendering, and the fact that the success path produces one output file
per successfully resolved row.  Downloading/decoding is collapsed into a
`resolve` predicate; rendering always succeeds on a decoded image.
--------------------------------------------------------------------- -/

/-- The four expected spreadsheet columns, in the order the source checks
them (source lines 198-203). -/
def expectedCols : List String :=
  ["Prekės ženklas", "Brandfetch (logo)", "Clearbit (logo)", "Oficiali svetainė"]

/-- Model of `missing = [c for c in [...] if c not in df.columns]` (line 203). -/
def missingCols (columns : List String) : List String :=
  expectedCols.filter fun c => ! columns.contains c

/-- A spreadsheet: its column names and the brand-name cells of its rows. -/
structure Sheet where
  columns : List String
  rows : List String

/-- The main flow: `.error missing` models `print(...); sys.exit(1)` — a
non-zero exit carrying the one diagnostic list, reached before any image
work; `.ok paths` models a completed run whose output files are exactly
`paths`. -/
def runMain (sheet : Sheet) (resolve : String → Bool) : Except (List String) (List String) :=
  if missingCols sheet.columns = [] then
    .ok (sheet.rows.filterMap fun brand =>
      let b := brand.trim
      if b = "" ∨ b.toLower = "nan" then none
      else if resolve b then some (slugify b ++ ".png") else none)
  else .error (missingCols sheet.columns)

/- ---------------------------------------------------------------------
Concrete inputs used by the scenario claims and the evaluations below.
--------------------------------------------------------------------- -/

/-- Scenario A logo: 100×100, fully opaque, solid red. -/
def redLogo : Img := constImg 100 100 ⟨255, 0, 0, 255⟩

/-- Scenario A card: `make_card` on the red logo with background
`(255,0,0)`, canvas 600, radius 40. -/
noncomputable def cardA : Img := make_card redLogo (some (255, 0, 0)) 600 40

/-- A 65×65 image that is opaque white except for one opaque black pixel
in the bottom-right corner — just past the 64×64 thumbnail bound, so the
thumbnail step drops (with the source's LANCZOS filter: blends away) its
only surviving pixel. -/
def cex65 : Img :=
  ⟨65, 65, fun x y => if x = 64 ∧ y = 64 then ⟨0, 0, 0, 255⟩ else ⟨255, 255, 255, 255⟩⟩

/-- A 1×1 opaque dark-red image. -/
def onePxRed : Img := constImg 1 1 ⟨200, 30, 30, 255⟩

/-- A 2×2 image whose pixels are all below the alpha visibility
threshold. -/
def faintImg : Img := constImg 2 2 ⟨7, 7, 7, 3⟩

/-- A 1×1 semi-transparent pixel image. -/
def demoImg : Img := constImg 1 1 ⟨10, 20, 30, 128⟩

/-- Column list of a spreadsheet missing the official-site column. -/
def noSiteCols : List String := ["Prekės ženklas", "Brandfetch (logo)", "Clearbit (logo)"]

/- ---------------------------------------------------------------------
Band-blending reading of the resampling filter, for the dominant-color
degenerate-input claim.

The source's LANCZOS filter has two effects a faithful account of
`dominant_color` on downsampled (larger than 64×64) images must reflect:
it does not keep every original pixel (captured exactly by the
subsampling `resample` above and exercised by `cex65`), and it blends
each of the four bands independently with normalised weights, so that it
can manufacture pixel values present nowhere in the input (captured by
`resampleBox` below).  `resampleBox` is the normalised box average with
round-half-to-even-free rounding (round half up); on the alternating
pattern of `stripes128` below every normalised filter — LANCZOS included
— yields the same mid-gray on every pixel away from the border, so the
conclusion drawn from it does not depend on the choice of window.
--------------------------------------------------------------------- -/

/-- Rounded-to-nearest average of a sum of `n` samples (half rounds up). -/
def roundAvg (sum n : Nat) : Nat := (2 * sum + n) / (2 * n)

/-- The source-pixel indices a box filter averages for output index `i`
when resizing extent `d` to extent `d2`. -/
def boxIdx (d d2 i : Nat) : List Nat :=
  let lo := i * d / d2
  let hi := (i + 1) * d / d2
  List.range' lo (max 1 (hi - lo))

/-- Resampling modelled in its band-blending aspect: each output pixel is
the rounded per-band average of its source box. -/
def resampleBox (img : Img) (w' h' : Nat) : Img :=
  ⟨w', h', fun x y =>
    let ps := (boxIdx img.height h' y).flatMap fun j =>
      (boxIdx img.width w' x).map fun i => img.px i j
    ⟨roundAvg (ps.map Pixel.r).sum ps.length,
     roundAvg (ps.map Pixel.g).sum ps.length,
     roundAvg (ps.map Pixel.b).sum ps.length,
     roundAvg (ps.map Pixel.a).sum ps.length⟩⟩

/-- The 64×64-bounded thumbnail under the band-blending reading. -/
def thumbnail64Box (img : Img) : Img :=
  let wh := thumbSize img.width img.height
  if wh = (img.width, img.height) then img else resampleBox img wh.1 wh.2

/-- The function `dominant_color` under the band-blending reading of its
thumbnail step (same histogram loop and fallback as `dominant_color`). -/
def dominant_colorBox (img : Img) : Color :=
  match (getdata (thumbnail64Box img)).foldl histStep [] with
  | [] => (245, 245, 245)
  | (k, n) :: t => maxKey k n t

/-- A 128×1 image of alternating fully transparent and opaque white
columns: every pixel fails the dominant-color filter (below the alpha
threshold or near-white), yet downsampling to width 64 blends each
transparent/white column pair — RGB bands 0/255, alpha band 0/255 — into
a surviving mid-gray (128,128,128,128) on every output pixel. -/
def stripes128 : Img :=
  ⟨128, 1, fun x _ => if x % 2 = 0 then ⟨0, 0, 0, 0⟩ else ⟨255, 255, 255, 255⟩⟩

/- =====================================================================
Theorems
===================================================================== -/

/-- Two images with the same dimensions and pointwise equal pixel
functions are equal. -/
theorem Img.congr_px {w h : Nat} {f g : Nat → Nat → Pixel}
    (hfg : ∀ x y, f x y = g x y) : Img.mk w h f = Img.mk w h g := by
  have : f = g := funext fun x => funext fun y => hfg x y
  rw [this]

/- ------------------------- slugify (C2) ------------------------- -/

/-- Lowercasing never yields an ASCII uppercase letter. -/
theorem toLower_isUpper_eq_false (c : Char) : (c.toLower).isUpper = false := by
  unfold Char.toLower Char.isUpper
  by_cases h : c.toNat ≥ 65 ∧ c.toNat ≤ 90
  · have hv : (c.toNat + 32).isValidChar := Or.inl (by omega)
    simp only [if_pos h, Char.ofNat, dif_pos hv, Char.ofNatAux]
    simp only [ge_iff_le, Bool.and_eq_false_iff, decide_eq_false_iff_not, UInt32.le_def,
      BitVec.le_def, BitVec.toNat_ofNatLt]
    right
    norm_num
    omega
  · simp only [if_neg h]
    simp only [ge_iff_le, Bool.and_eq_false_iff, decide_eq_false_iff_not, UInt32.le_def,
      BitVec.le_def]
    have hc : c.toNat = c.val.toBitVec.toNat := rfl
    by_cases h65 : 65 ≤ c.toNat
    · right; norm_num; omega
    · left; norm_num; omega

/-- Characters produced by the whitespace-collapsing pass are either the
inserted underscore or non-whitespace characters of the input, for any
whitespace class. -/
theorem mem_collapseWith {c : Char} {isSp : Char → Bool} :
    ∀ (b : Bool) (l : List Char), c ∈ collapseWith isSp b l →
      c = '_' ∨ (c ∈ l ∧ isSp c = false) := by
  intro b l
  induction l generalizing b with
  | nil => intro hmem; simp [collapseWith] at hmem
  | cons d t ih =>
    intro hmem
    by_cases hd : isSp d = true
    · rw [collapseWith, if_pos hd] at hmem
      rcases b with _ | _
      · simp only [if_neg (by simp : ¬ (false = true)), List.mem_cons] at hmem
        rcases hmem with h1 | h2
        · exact Or.inl h1
        · rcases ih true h2 with h | ⟨hm, hw⟩
          · exact Or.inl h
          · exact Or.inr ⟨List.mem_cons_of_mem _ hm, hw⟩
      · simp only [if_pos rfl] at hmem
        rcases ih true hmem with h | ⟨hm, hw⟩
        · exact Or.inl h
        · exact Or.inr ⟨List.mem_cons_of_mem _ hm, hw⟩
    · rw [collapseWith, if_neg hd] at hmem
      rcases List.mem_cons.mp hmem with h1 | h2
      · exact Or.inr ⟨h1 ▸ List.mem_cons_self _ _, h1 ▸ Bool.eq_false_iff.mpr hd⟩
      · rcases ih false h2 with h | ⟨hm, hw⟩
        · exact Or.inl h
        · exact Or.inr ⟨List.mem_cons_of_mem _ hm, hw⟩

/-- Every character of a slug is a word character or a hyphen, and never
an uppercase letter — for every word class containing the ASCII
alphanumerics and the underscore (as the source's Unicode `\w` does) and
every lowering function that never produces an uppercase letter (as the
source's `str.lower()` does). -/
theorem mem_slugifyWith {c : Char} {isW : Char → Bool} {lower : Char → Char}
    {isSp : Char → Bool} {s : List Char}
    (hAl : ∀ ch, ch.isAlphanum = true → isW ch = true) (hU : isW '_' = true)
    (hlow : ∀ ch, ((lower ch).isUpper) = false)
    (hmem : c ∈ slugifyWith isW lower isSp s) :
    (isW c || c == '-') = true ∧ c.isUpper = false := by
  simp only [slugifyWith] at hmem
  by_cases h3 :
      collapseWith isSp false
        (((stripWith isSp s).map lower).filter
          fun c => isW c || isSp c || c == '-') = []
  · rw [if_pos h3] at hmem
    fin_cases hmem <;>
      exact ⟨by rw [hAl _ (by decide)]; rfl, by decide⟩
  · rw [if_neg h3] at hmem
    rcases mem_collapseWith false _ hmem with h | ⟨hm, hw⟩
    · exact h ▸ ⟨by rw [hU]; rfl, by decide⟩
    · have hfil := List.mem_filter.mp hm
      have hlower : ∃ c', c = lower c' := by
        rcases List.mem_map.mp hfil.1 with ⟨c', _, hc'⟩
        exact ⟨c', hc'.symm⟩
      rcases hlower with ⟨c', hc'⟩
      refine ⟨?_, hc' ▸ hlow c'⟩
      have hp := hfil.2
      rw [hw] at hp
      simpa using hp

/-- C2, counterexample: the slug of the claim's own example brand name
contains a hyphen (the regexp class `[^\w\s-]` keeps hyphens), and a
brand name with leading/trailing underscores keeps them (`_` is a word
character). -/
theorem slugify_cex :
    slugify "Coca-Cola™ Lietuva!" = "coca-cola_lietuva" ∧
    ('-' ∈ (slugify "Coca-Cola™ Lietuva!").data) ∧
    slugify "_x_" = "_x_" := by
  exact ⟨rfl, by decide, rfl⟩

/-- C2 (amended): for every word class containing the ASCII alphanumerics
and the underscore — as the source's Unicode `\w` does, which also keeps
non-ASCII letters such as 'ė' — every lowering function that never
produces an uppercase letter — as `str.lower()` — and every whitespace
class, each character of the produced slug is a word character or a
hyphen and never an uppercase letter; so the slug consists of lowercase
word characters (letters — including non-ASCII ones — digits,
underscores) and hyphens, with no whitespace kept; leading or trailing
underscores can occur.  The example brand name "Coca-Cola™ Lietuva!"
slugifies to "coca-cola_lietuva", and repeated calls return the same
slug. -/
theorem slugify_charset (isW : Char → Bool) (lower : Char → Char) (isSp : Char → Bool)
    (hAl : ∀ c, c.isAlphanum = true → isW c = true) (hU : isW '_' = true)
    (hlow : ∀ c, ((lower c).isUpper) = false) (s : List Char) :
    ((slugifyWith isW lower isSp s).all fun c => (isW c || c == '-') && ! c.isUpper) = true ∧
    slugify "Coca-Cola™ Lietuva!" = "coca-cola_lietuva" ∧
    slugifyWith isW lower isSp s = slugifyWith isW lower isSp s := by
  refine ⟨?_, rfl, rfl⟩
  rw [List.all_eq_true]
  intro c hc
  have h := mem_slugifyWith hAl hU hlow hc
  simp [h.1, h.2]

/-- Witness for C2's amended theorem at the ASCII instantiation on the
example brand name. -/
theorem slugify_charset_witness :
    ((slugifyWith isWordC Char.toLower Char.isWhitespace "Coca-Cola™ Lietuva!".data).all
      fun c => (isWordC c || c == '-') && ! c.isUpper) = true ∧
    slugify "Coca-Cola™ Lietuva!" = "coca-cola_lietuva" := by
  have h := slugify_charset isWordC Char.toLower Char.isWhitespace
    (fun c hc => by simp [isWordC, hc]) (by decide)
    toLower_isUpper_eq_false "Coca-Cola™ Lietuva!".data
  exact ⟨h.1, h.2.1⟩

/- ------------------- dominant_color (C3, C7) ------------------- -/

/-- Membership in `getdata` is exactly being a pixel of the grid. -/
theorem mem_getdata {p : Pixel} {img : Img} :
    p ∈ getdata img ↔ ∃ x y, x < img.width ∧ y < img.height ∧ p = img.px x y := by
  simp only [getdata, List.mem_flatMap, List.mem_map, List.mem_range]
  constructor
  · rintro ⟨y, hy, x, hx, rfl⟩
    exact ⟨x, y, hx, hy, rfl⟩
  · rintro ⟨x, y, hx, hy, rfl⟩
    exact ⟨y, hy, x, hx, rfl⟩

/-- Bumping a histogram entry never empties the histogram. -/
theorem bump_ne_nil (l : List (Color × Nat)) (k : Color) : bump l k ≠ [] := by
  cases l with
  | nil => simp [bump]
  | cons hd t =>
    rcases hd with ⟨k', n⟩
    by_cases h : k' = k <;> simp [bump, h]

/-- A pixel that fails the filter leaves the histogram unchanged. -/
theorem histStep_of_not_surv {p : Pixel} (l : List (Color × Nat))
    (h : survives p = false) : histStep l p = l := by
  unfold survives at h
  rcases Bool.and_eq_false_iff.mp h with h1 | h1
  · have ha : p.a < 10 := by simpa using h1
    simp [histStep, ha]
  · have hnw : 240 < p.r ∧ 240 < p.g ∧ 240 < p.b := by
      simpa [Bool.not_eq_false, Bool.and_eq_true, decide_eq_true_iff, and_assoc] using h1
    by_cases ha : p.a < 10 <;> simp [histStep, ha, hnw]

/-- A surviving pixel bumps its RGB key. -/
theorem histStep_of_surv {p : Pixel} (l : List (Color × Nat))
    (h : survives p = true) : histStep l p = bump l p.rgb := by
  unfold survives at h
  have h12 : decide (¬ p.a < 10) = true ∧
      (! (decide (240 < p.r) && decide (240 < p.g) && decide (240 < p.b))) = true := by
    simpa using h
  rcases h12 with ⟨h1, h2⟩
  have ha : ¬ p.a < 10 := by simpa using h1
  have hnw : ¬ (240 < p.r ∧ 240 < p.g ∧ 240 < p.b) := by
    have h2f : (decide (240 < p.r) && decide (240 < p.g) && decide (240 < p.b)) = false := by
      rcases Bool.eq_false_or_eq_true
          (decide (240 < p.r) && decide (240 < p.g) && decide (240 < p.b)) with hb | hb
      · rw [hb] at h2
        exact absurd h2 (by simp)
      · exact hb
    rintro ⟨hr, hg, hb2⟩
    simp [hr, hg, hb2] at h2f
  simp [histStep, ha, hnw]

/-- One histogram step never empties a nonempty histogram. -/
theorem histStep_ne_nil {l : List (Color × Nat)} (p : Pixel) (hl : l ≠ []) :
    histStep l p ≠ [] := by
  unfold histStep
  split
  · exact hl
  · split
    · exact hl
    · exact bump_ne_nil l p.rgb

/-- Folding histogram steps never empties a nonempty histogram. -/
theorem foldl_histStep_ne_nil :
    ∀ (ps : List Pixel) (l : List (Color × Nat)), l ≠ [] → ps.foldl histStep l ≠ [] := by
  intro ps
  induction ps with
  | nil => intro l hl; simpa using hl
  | cons p t ih =>
    intro l hl
    simpa [List.foldl_cons] using ih (histStep l p) (histStep_ne_nil p hl)

/-- A surviving pixel in the data makes the final histogram nonempty. -/
theorem foldl_histStep_ne_nil_of_mem {p : Pixel} :
    ∀ (ps : List Pixel) (l : List (Color × Nat)), p ∈ ps → survives p = true →
      ps.foldl histStep l ≠ [] := by
  intro ps
  induction ps with
  | nil => intro l hmem; simp at hmem
  | cons q t ih =>
    intro l hmem hs
    rcases List.mem_cons.mp hmem with rfl | hmem'
    · have : histStep l p ≠ [] := by
        rw [histStep_of_surv l hs]
        exact bump_ne_nil l p.rgb
      simpa [List.foldl_cons] using foldl_histStep_ne_nil t _ this
    · simpa [List.foldl_cons] using ih (histStep l q) hmem' hs

/-- The keys of a bumped histogram are the old keys plus the bumped key. -/
theorem mem_keys_bump {k' : Color} :
    ∀ {l : List (Color × Nat)} {k : Color}, k' ∈ (bump l k).map Prod.fst →
      k' ∈ l.map Prod.fst ∨ k' = k := by
  intro l
  induction l with
  | nil =>
    intro k h
    simp [bump] at h
    exact Or.inr h
  | cons hd t ih =>
    rcases hd with ⟨k0, n⟩
    intro k h
    by_cases hk : k0 = k
    · rw [bump, if_pos hk] at h
      rw [List.map_cons] at h
      exact Or.inl (by rw [List.map_cons]; exact h)
    · rw [bump, if_neg hk] at h
      rw [List.map_cons] at h
      rcases List.mem_cons.mp h with rfl | h'
      · exact Or.inl (by simp)
      · rcases ih h' with h2 | h2
        · exact Or.inl (List.mem_cons_of_mem _ h2)
        · exact Or.inr h2

/-- Every key of the folded histogram is the RGB triple of one of the
processed pixels (or a key already present). -/
theorem mem_keys_foldl {k' : Color} :
    ∀ (ps : List Pixel) (l : List (Color × Nat)),
      k' ∈ (ps.foldl histStep l).map Prod.fst →
        k' ∈ l.map Prod.fst ∨ ∃ p ∈ ps, k' = p.rgb := by
  intro ps
  induction ps with
  | nil =>
    intro l h
    exact Or.inl (by simpa using h)
  | cons p t ih =>
    intro l h
    rw [List.foldl_cons] at h
    rcases ih (histStep l p) h with h1 | h1
    · unfold histStep at h1
      split at h1
      · exact Or.inl h1
      · split at h1
        · exact Or.inl h1
        · rcases mem_keys_bump h1 with h2 | h2
          · exact Or.inl h2
          · exact Or.inr ⟨p, List.mem_cons_self p t, h2⟩
    · rcases h1 with ⟨q, hq, hk⟩
      exact Or.inr ⟨q, List.mem_cons_of_mem _ hq, hk⟩

/-- The maximum scan returns one of the candidate keys. -/
theorem maxKey_mem :
    ∀ (t : List (Color × Nat)) (k : Color) (n : Nat),
      maxKey k n t ∈ k :: t.map Prod.fst := by
  intro t
  induction t with
  | nil => intro k n; simp [maxKey]
  | cons hd t ih =>
    rcases hd with ⟨k', n'⟩
    intro k n
    rw [maxKey]
    split
    · have := ih k' n'
      simp only [List.map_cons, List.mem_cons] at this ⊢
      tauto
    · have := ih k n
      simp only [List.map_cons, List.mem_cons] at this ⊢
      tauto

/-- If the histogram ends up nonempty, `dominant_color` returns the RGB
triple of one of the thumbnail's pixels. -/
theorem dominant_color_mem (img : Img)
    (hne : (getdata (thumbnail64 img)).foldl histStep [] ≠ []) :
    ∃ p ∈ getdata (thumbnail64 img), dominant_color img = p.rgb := by
  rcases hh : (getdata (thumbnail64 img)).foldl histStep [] with _ | ⟨⟨k, n⟩, t⟩
  · exact absurd hh hne
  · have hdom : dominant_color img = maxKey k n t := by
      simp [dominant_color, hh]
    have hkeys := maxKey_mem t k n
    have : maxKey k n t ∈ (((k, n) :: t) : List (Color × Nat)).map Prod.fst := by
      simpa using hkeys
    rw [← hh] at this
    rcases mem_keys_foldl _ _ this with h1 | ⟨p, hp, hk⟩
    · simp at h1
    · exact ⟨p, hp, hdom ▸ hk⟩

/-- If every pixel is filtered out, the fold leaves the histogram as it
started. -/
theorem foldl_histStep_of_filtered :
    ∀ (ps : List Pixel) (l : List (Color × Nat)),
      (∀ p ∈ ps, survives p = false) → ps.foldl histStep l = l := by
  intro ps
  induction ps with
  | nil => intro l _; rfl
  | cons p t ih =>
    intro l hall
    rw [List.foldl_cons, histStep_of_not_surv l (hall p (List.mem_cons_self p t))]
    exact ih l fun q hq => hall q (List.mem_cons_of_mem _ hq)

/-- If no thumbnail pixel survives the filter, `dominant_color` returns
the light-gray fallback. -/
theorem dominant_color_fallback {img : Img}
    (h : ∀ p ∈ getdata (thumbnail64 img), survives p = false) :
    dominant_color img = (245, 245, 245) := by
  simp [dominant_color, foldl_histStep_of_filtered _ _ h]

/-- An image already fitting in the 64×64 box is left untouched by the
thumbnail step. -/
theorem thumbnail64_of_le {img : Img} (hw : img.width ≤ 64) (hh : img.height ≤ 64) :
    thumbnail64 img = img := by
  simp [thumbnail64, thumbSize, hw, hh]

/-- The 65→64 subsampling grid fixes every index below 64. -/
theorem mul65_div64 {x : Nat} (hx : x < 64) : x * 65 / 64 = x := by
  have hsplit : x * 65 = 64 * x + x := by ring
  rw [hsplit, Nat.mul_add_div (by norm_num), Nat.div_eq_of_lt hx]
  omega

/-- C3, counterexample: the 65×65 white image with a single opaque black
pixel at (64,64) has a surviving pixel, yet `dominant_color` thumbnails
the image to 64×64 first, which loses that pixel — the histogram is empty
and the fallback (245,245,245) is returned, a color possessed by no pixel
of the image.  (With the source's LANCZOS filter the corner pixel is
instead blended into its neighbours, again yielding a color that no
original pixel has.) -/
theorem dominant_color_cex :
    survives (cex65.px 64 64) = true ∧
    dominant_color cex65 = (245, 245, 245) ∧
    ((getdata cex65).all fun p => ! decide (p.rgb = (245, 245, 245))) = true := by
  refine ⟨by decide, ?_, ?_⟩
  · apply dominant_color_fallback
    have hthumb : thumbnail64 cex65 = resample cex65 64 64 := by
      simp only [thumbnail64]
      rw [show thumbSize cex65.width cex65.height = (64, 64) from by decide]
      rw [if_neg (by decide)]
    rw [hthumb]
    intro p hp
    obtain ⟨x, y, hx, hy, rfl⟩ := mem_getdata.mp hp
    simp only [resample] at hx hy ⊢
    have hx65 : x * cex65.width / 64 = x := mul65_div64 hx
    have hy65 : y * cex65.height / 64 = y := mul65_div64 hy
    rw [hx65, hy65]
    have hne : ¬ (x = 64 ∧ y = 64) := by omega
    show survives (cex65.px x y) = false
    simp only [cex65, if_neg hne]
    decide
  · rw [List.all_eq_true]
    intro p hp
    obtain ⟨x, y, hx, hy, rfl⟩ := mem_getdata.mp hp
    by_cases hxy : x = 64 ∧ y = 64
    · simp only [cex65, if_pos hxy]
      decide
    · simp only [cex65, if_neg hxy]
      decide

/-- C3 (amended): for an image that fits within the 64×64 thumbnail
bounds (so the thumbnail pass leaves it untouched) and has at least one
pixel with alpha ≥ 10 that is not near-white, `dominant_color` returns
the exact RGB triple of one of the image's own pixels, never a
synthesized blend. -/
theorem dominant_color_actual_pixel (img : Img) (hw : img.width ≤ 64)
    (hh : img.height ≤ 64) (p₀ : Pixel) (hmem : p₀ ∈ getdata img)
    (hs : survives p₀ = true) :
    ∃ p ∈ getdata img, dominant_color img = p.rgb := by
  have ht := thumbnail64_of_le hw hh
  have hne : (getdata (thumbnail64 img)).foldl histStep [] ≠ [] := by
    rw [ht]
    exact foldl_histStep_ne_nil_of_mem _ _ hmem hs
  obtain ⟨p, hp, hdom⟩ := dominant_color_mem img hne
  exact ⟨p, ht ▸ hp, hdom⟩

/-- Witness for C3's amended theorem: a 1×1 opaque dark-red image. -/
theorem dominant_color_actual_pixel_witness :
    ∃ p ∈ getdata onePxRed, dominant_color onePxRed = p.rgb :=
  dominant_color_actual_pixel onePxRed (by decide) (by decide)
    ⟨200, 30, 30, 255⟩ (by decide) (by decide)

/-- C7, counterexample: the claim quantifies over every input image, but
for images larger than the 64×64 thumbnail bound the all-filtered
precondition does not guarantee the fallback, because the thumbnail's
resampling filter blends bands: on a 128×1 image of alternating fully
transparent and opaque white columns — every pixel filtered, as the
first conjunct checks — the blending thumbnail yields surviving mid-gray
(128,128,128,128) pixels, and the pipeline returns the blend
(128,128,128), not the fallback (245,245,245).  The source's LANCZOS
filter blends the same alternating pattern into the same mid-gray on all
pixels away from the border, so the program likewise returns a gray
blend here. -/
theorem dominant_color_degenerate_cex :
    ((getdata stripes128).all fun p => ! survives p) = true ∧
    dominant_colorBox stripes128 = (128, 128, 128) ∧
    (128, 128, 128) ≠ ((245, 245, 245) : Color) := by
  exact ⟨by decide, by decide, by decide⟩

/-- C7 (amended): on an image fitting within the 64×64 thumbnail bounds
(so the thumbnail step leaves the pixel grid unchanged) none of whose
pixels survives the filter (each is below the alpha visibility threshold
or near-white), `dominant_color` does not fail and returns the
light-gray fallback (245,245,245). -/
theorem dominant_color_degenerate (img : Img) (hw : img.width ≤ 64)
    (hh : img.height ≤ 64)
    (hfil : ∀ x, x < img.width → ∀ y, y < img.height → survives (img.px x y) = false) :
    dominant_color img = (245, 245, 245) := by
  apply dominant_color_fallback
  rw [thumbnail64_of_le hw hh]
  intro p hp
  obtain ⟨x, y, hx, hy, rfl⟩ := mem_getdata.mp hp
  exact hfil x hx y hy

/-- Witness for C7's amended theorem: a fully faint 2×2 image. -/
theorem dominant_color_degenerate_witness :
    dominant_color faintImg = (245, 245, 245) :=
  dominant_color_degenerate faintImg (by decide) (by decide) (by decide)

/- ------------------- recolor_to_white (C4) ------------------- -/

/-- C4: `recolor_to_white` keeps the dimensions, preserves the alpha
channel pixel-for-pixel, turns the RGB of every pixel with positive
alpha into pure white, and passes fully transparent pixels through
unchanged. -/
theorem recolor_to_white_spec (img : Img) (x y : Nat) :
    (recolor_to_white img).width = img.width ∧
    (recolor_to_white img).height = img.height ∧
    ((recolor_to_white img).px x y).a = (img.px x y).a ∧
    (0 < (img.px x y).a → ((recolor_to_white img).px x y).rgb = (255, 255, 255)) ∧
    ((img.px x y).a = 0 → (recolor_to_white img).px x y = img.px x y) := by
  refine ⟨rfl, rfl, ?_, ?_, ?_⟩
  · simp only [recolor_to_white]
    by_cases h : (img.px x y).a = 0 <;> simp [h]
  · intro h
    simp only [recolor_to_white]
    rw [if_neg (by omega)]
    rfl
  · intro h
    simp only [recolor_to_white]
    rw [if_pos h]

/-- Witness for C4 on a concrete semi-transparent pixel. -/
theorem recolor_to_white_spec_witness :
    ((recolor_to_white demoImg).px 0 0).a = 128 ∧
    ((recolor_to_white demoImg).px 0 0).rgb = (255, 255, 255) := by
  refine ⟨?_, (recolor_to_white_spec demoImg 0 0).2.2.2.1 (by decide)⟩
  rw [(recolor_to_white_spec demoImg 0 0).2.2.1]
  rfl

/- ------------------- fit_logo (C5, C10) ------------------- -/

/-- Clamped flooring `max 1 ⌊x⌋` is within one pixel of the exact value `x ≥ 0`. -/
theorem floor_clamp_close {x : ℚ} (hx : 0 ≤ x) :
    |((max 1 (⌊x⌋).toNat : ℕ) : ℚ) - x| ≤ 1 := by
  by_cases h1 : ⌊x⌋ ≤ 0
  · have hxlt : x < 1 := by
      have hlt := Int.lt_floor_add_one x
      have hle : ((⌊x⌋ : ℚ) + 1) ≤ 0 + 1 := by
        have : (⌊x⌋ : ℚ) ≤ 0 := by exact_mod_cast h1
        linarith
      linarith
    rw [Int.toNat_of_nonpos h1]
    rw [abs_le]
    constructor <;> simp <;> linarith
  · push_neg at h1
    have hmax : max 1 (⌊x⌋).toNat = (⌊x⌋).toNat := max_eq_right (by omega)
    rw [hmax]
    have hcast : (((⌊x⌋).toNat : ℕ) : ℚ) = ((⌊x⌋ : ℤ) : ℚ) := by
      exact_mod_cast congrArg (fun n : ℤ => (n : ℚ)) (Int.toNat_of_nonneg (le_of_lt h1))
    rw [hcast, abs_le]
    constructor
    · have := Int.lt_floor_add_one x
      linarith
    · have := Int.floor_le x
      linarith

/-- The fit scale is non-negative. -/
theorem fitScale_nonneg (w h canvas : Nat) (mr : ℚ) : 0 ≤ fitScale w h canvas mr := by
  unfold fitScale
  refine le_min ?_ ?_ <;> positivity

/-- The scenario-A fit target: `int(600 * 0.62) = 372`. -/
theorem fitTarget_scenarioA : fitTarget 600 (62 / 100 : ℚ) = 372 := by
  unfold fitTarget
  norm_num
  rfl

/-- The scenario-A scale factor is `372/100`. -/
theorem fitScale_scenarioA : fitScale 100 100 600 (62 / 100 : ℚ) = 372 / 100 := by
  unfold fitScale
  rw [fitTarget_scenarioA]
  norm_num

/-- The scenario-A fitted size is exactly 372×372. -/
theorem fitSize_scenarioA : fitSize 100 100 600 (62 / 100 : ℚ) = (372, 372) := by
  unfold fitSize
  rw [fitScale_scenarioA]
  norm_num
  rfl

/-- C5: `fit_logo` applies the single uniform scale factor
`min(target/w, target/h)` (with `target = int(canvas * max_ratio)`) to
both axes, and each output dimension is within one pixel of the exact
uniformly scaled value — so the output aspect ratio matches the input
aspect ratio up to that one-pixel rounding. -/
theorem fit_logo_aspect (img : Img) (canvas : Nat) (mr : ℚ)
    (hw : 0 < img.width) (hh : 0 < img.height) :
    ((fit_logo img canvas mr).width, (fit_logo img canvas mr).height) =
      (max 1 (⌊(img.width : ℚ) * fitScale img.width img.height canvas mr⌋).toNat,
       max 1 (⌊(img.height : ℚ) * fitScale img.width img.height canvas mr⌋).toNat) ∧
    |((fit_logo img canvas mr).width : ℚ) -
        (img.width : ℚ) * fitScale img.width img.height canvas mr| ≤ 1 ∧
    |((fit_logo img canvas mr).height : ℚ) -
        (img.height : ℚ) * fitScale img.width img.height canvas mr| ≤ 1 := by
  refine ⟨rfl, ?_, ?_⟩
  · exact floor_clamp_close (mul_nonneg (by positivity) (fitScale_nonneg _ _ _ _))
  · exact floor_clamp_close (mul_nonneg (by positivity) (fitScale_nonneg _ _ _ _))

/-- Witness for C5 at the scenario-A dimensions. -/
theorem fit_logo_aspect_witness :
    ((fit_logo redLogo 600 (62 / 100 : ℚ)).width : ℚ) = 372 ∧
    |((fit_logo redLogo 600 (62 / 100 : ℚ)).width : ℚ) -
        (redLogo.width : ℚ) * fitScale redLogo.width redLogo.height 600 (62 / 100 : ℚ)| ≤ 1 := by
  have hw : (fit_logo redLogo 600 (62 / 100 : ℚ)).width =
      (fitSize 100 100 600 (62 / 100 : ℚ)).1 := rfl
  refine ⟨by rw [hw, fitSize_scenarioA]; norm_num, ?_⟩
  exact (fit_logo_aspect redLogo 600 (62 / 100 : ℚ) (by decide) (by decide)).2.1

/-- C10: under the precondition that both logo dimensions are at least 1
(the scale computation divides by the dimensions) and the fit target
`int(canvas * max_ratio)` is at least 1, both output dimensions of
`fit_logo` lie between 1 and the target. -/
theorem fit_logo_bounds (img : Img) (canvas : Nat) (mr : ℚ)
    (hw : 1 ≤ img.width) (hh : 1 ≤ img.height) (ht : 1 ≤ fitTarget canvas mr) :
    (1 ≤ (fit_logo img canvas mr).width ∧
      (fit_logo img canvas mr).width ≤ fitTarget canvas mr) ∧
    (1 ≤ (fit_logo img canvas mr).height ∧
      (fit_logo img canvas mr).height ≤ fitTarget canvas mr) := by
  have key : ∀ d : Nat, 1 ≤ d →
      (⌊(d : ℚ) * fitScale img.width img.height canvas mr⌋).toNat ≤ fitTarget canvas mr →
        True := fun _ _ _ => trivial
  have hwidth : ((img.width : ℚ)) * fitScale img.width img.height canvas mr ≤
      (fitTarget canvas mr : ℚ) := by
    have hle : fitScale img.width img.height canvas mr ≤
        (fitTarget canvas mr : ℚ) / (img.width : ℚ) := min_le_left _ _
    have hw0 : (0 : ℚ) < (img.width : ℚ) := by exact_mod_cast hw
    calc (img.width : ℚ) * fitScale img.width img.height canvas mr
        ≤ (img.width : ℚ) * ((fitTarget canvas mr : ℚ) / (img.width : ℚ)) :=
          mul_le_mul_of_nonneg_left hle (le_of_lt hw0)
      _ = (fitTarget canvas mr : ℚ) := by field_simp
  have hheight : ((img.height : ℚ)) * fitScale img.width img.height canvas mr ≤
      (fitTarget canvas mr : ℚ) := by
    have hle : fitScale img.width img.height canvas mr ≤
        (fitTarget canvas mr : ℚ) / (img.height : ℚ) := min_le_right _ _
    have hh0 : (0 : ℚ) < (img.height : ℚ) := by exact_mod_cast hh
    calc (img.height : ℚ) * fitScale img.width img.height canvas mr
        ≤ (img.height : ℚ) * ((fitTarget canvas mr : ℚ) / (img.height : ℚ)) :=
          mul_le_mul_of_nonneg_left hle (le_of_lt hh0)
      _ = (fitTarget canvas mr : ℚ) := by field_simp
  have hfw : (⌊(img.width : ℚ) * fitScale img.width img.height canvas mr⌋).toNat ≤
      fitTarget canvas mr := by
    rw [Int.toNat_le]
    calc ⌊(img.width : ℚ) * fitScale img.width img.height canvas mr⌋
        ≤ ⌊(fitTarget canvas mr : ℚ)⌋ := Int.floor_le_floor hwidth
      _ = (fitTarget canvas mr : ℤ) := Int.floor_natCast _
  have hfh : (⌊(img.height : ℚ) * fitScale img.width img.height canvas mr⌋).toNat ≤
      fitTarget canvas mr := by
    rw [Int.toNat_le]
    calc ⌊(img.height : ℚ) * fitScale img.width img.height canvas mr⌋
        ≤ ⌊(fitTarget canvas mr : ℚ)⌋ := Int.floor_le_floor hheight
      _ = (fitTarget canvas mr : ℤ) := Int.floor_natCast _
  exact ⟨⟨le_max_left _ _, Nat.max_le.mpr ⟨ht, hfw⟩⟩,
         ⟨le_max_left _ _, Nat.max_le.mpr ⟨ht, hfh⟩⟩⟩

/-- Witness for C10 at the scenario-A dimensions. -/
theorem fit_logo_bounds_witness :
    1 ≤ (fit_logo redLogo 600 (62 / 100 : ℚ)).width ∧
    (fit_logo redLogo 600 (62 / 100 : ℚ)).width ≤ fitTarget 600 (62 / 100 : ℚ) :=
  (fit_logo_bounds redLogo 600 (62 / 100 : ℚ) (by decide) (by decide)
    (by rw [fitTarget_scenarioA]; norm_num)).1

/- ------------------- contrast and luminance (C8, C9) ------------------- -/

/-- C8: `contrast_ratio` is symmetric in its two arguments — it divides
the larger shifted luminance by the smaller one, and `max`/`min` do not
depend on the argument order. -/
theorem contrast_ratio_symm (c1 c2 : Color) :
    contrast_ratio' c1 c2 = contrast_ratio' c2 c1 := by
  simp only [contrast_ratio']
  rw [max_comm, min_comm]

/-- C9: the relative luminance of pure black is exactly 0 and of pure
white exactly 1, under the sRGB linearisation with breakpoint 0.03928
and channel weights 0.2126/0.7152/0.0722. -/
theorem relative_luminance_extremes :
    relative_luminance (0, 0, 0) = 0 ∧ relative_luminance (255, 255, 255) = 1 := by
  have hc0 : channel 0 = 0 := by
    simp only [channel]
    rw [if_pos (by norm_num)]
    norm_num
  have hc255 : channel 255 = 1 := by
    simp only [channel]
    rw [if_neg (by norm_num)]
    have harg : (((255 : Nat) : ℝ) / 255 + 0.055) / 1.055 = 1 := by norm_num
    rw [harg, Real.one_rpow]
  constructor
  · show 0.2126 * channel 0 + 0.7152 * channel 0 + 0.0722 * channel 0 = 0
    rw [hc0]
    ring
  · show 0.2126 * channel 255 + 0.7152 * channel 255 + 0.0722 * channel 255 = 1
    rw [hc255]
    norm_num

/- ------------------- column validation (C6) ------------------- -/

/-- C6: when any of the four expected columns is missing, the run reports
exactly the full list of missing column names in the single fatal
diagnostic and terminates before any image work, producing no output
files (there is no `.ok` result, whatever the resolver would do). -/
theorem missing_columns_abort (sheet : Sheet) (resolve : String → Bool)
    (hmiss : missingCols sheet.columns ≠ []) :
    runMain sheet resolve = .error (missingCols sheet.columns) ∧
    ∀ outs, runMain sheet resolve ≠ .ok outs := by
  have h : runMain sheet resolve = .error (missingCols sheet.columns) := by
    simp [runMain, hmiss]
  refine ⟨h, fun outs hcontra => ?_⟩
  rw [h] at hcontra
  exact Except.noConfusion hcontra

/-- Witness for C6: a spreadsheet missing exactly the official-site
column is reported with exactly that column name. -/
theorem missing_columns_abort_witness :
    missingCols noSiteCols = ["Oficiali svetainė"] ∧
    runMain ⟨noSiteCols, []⟩ (fun _ => false) = .error (missingCols noSiteCols) :=
  ⟨by decide, (missing_columns_abort ⟨noSiteCols, []⟩ (fun _ => false) (by decide)).1⟩

/- ------------------- make_card scenario A (C1) ------------------- -/

/-- Flat-mapping a constant replicate is a replicate. -/
theorem flatMap_const_replicate {α β : Type} (l : List α) (n : Nat) (x : β) :
    (l.flatMap fun _ => List.replicate n x) = List.replicate (l.length * n) x := by
  induction l with
  | nil => simp
  | cons hd t ih =>
    simp only [List.flatMap_cons, ih, List.length_cons]
    rw [← List.replicate_add]
    congr 1
    ring

/-- The pixel data of a constant image is a replicated list. -/
theorem getdata_constImg (w h : Nat) (p : Pixel) :
    getdata (constImg w h p) = List.replicate (h * w) p := by
  unfold getdata constImg
  simp only [List.map_const']
  rw [show ((List.range w).length) = w from List.length_range w]
  rw [flatMap_const_replicate, List.length_range]

/-- The average color of a nonempty constant image is its color. -/
theorem avgColor_constImg (w h : Nat) (p : Pixel) (hw : 0 < w) (hh : 0 < h) :
    avgColor (constImg w h p) = p.rgb := by
  unfold avgColor
  rw [getdata_constImg]
  simp only [List.map_replicate, List.sum_replicate, List.length_replicate, smul_eq_mul]
  have hpos : 0 < h * w := Nat.mul_pos hh hw
  rw [Nat.mul_div_cancel_left _ hpos, Nat.mul_div_cancel_left _ hpos,
    Nat.mul_div_cancel_left _ hpos]
  rfl

/-- Resampling a constant image gives the constant image at the new
size. -/
theorem resample_constImg (w h w' h' : Nat) (p : Pixel) :
    resample (constImg w h p) w' h' = constImg w' h' p := rfl

/-- The scenario-A logo fits to a solid red 372×372 image. -/
theorem fit_logo_scenarioA :
    fit_logo redLogo 600 (62 / 100 : ℚ) = constImg 372 372 ⟨255, 0, 0, 255⟩ := by
  show resample redLogo
      (fitSize redLogo.width redLogo.height 600 (62 / 100 : ℚ)).1
      (fitSize redLogo.width redLogo.height 600 (62 / 100 : ℚ)).2 = _
  rw [show fitSize redLogo.width redLogo.height 600 (62 / 100 : ℚ) = (372, 372)
    from fitSize_scenarioA]
  exact resample_constImg 100 100 372 372 ⟨255, 0, 0, 255⟩

/-- Each sRGB channel linearisation is non-negative. -/
theorem channel_nonneg (c : Nat) : 0 ≤ channel c := by
  simp only [channel]
  split
  · positivity
  · positivity

/-- Relative luminance is non-negative. -/
theorem relative_luminance_nonneg (c : Color) : 0 ≤ relative_luminance c := by
  unfold relative_luminance
  have h1 := channel_nonneg c.1
  have h2 := channel_nonneg c.2.1
  have h3 := channel_nonneg c.2.2
  positivity

/-- The contrast ratio of a color with itself is exactly 1. -/
theorem contrast_ratio_self (c : Color) : contrast_ratio' c c = 1 := by
  simp only [contrast_ratio', max_self, min_self]
  have h := relative_luminance_nonneg c
  have hne : relative_luminance c + 0.05 ≠ 0 := by positivity
  exact div_self hne

/-- Blending with mask value 255 copies the source channel. -/
theorem blendC_255 (d s : Nat) : blendC d s 255 = s := by
  unfold blendC
  have h : s * 255 + d * (255 - 255) + 127 = 255 * s + 127 := by omega
  rw [h, Nat.mul_add_div (by norm_num)]
  norm_num

/-- Blending with mask value 0 keeps the destination channel. -/
theorem blendC_0 (d s : Nat) : blendC d s 0 = d := by
  unfold blendC
  have h : s * 0 + d * (255 - 0) + 127 = 255 * d + 127 := by omega
  rw [h, Nat.mul_add_div (by norm_num)]
  norm_num

/-- Blending a pixel with mask value 255 copies the source pixel. -/
theorem blendPx_255 (d s : Pixel) : blendPx d s 255 = s := by
  unfold blendPx
  rw [blendC_255, blendC_255, blendC_255, blendC_255]

/-- Blending a pixel with mask value 0 keeps the destination pixel. -/
theorem blendPx_0 (d s : Pixel) : blendPx d s 0 = d := by
  unfold blendPx
  rw [blendC_0, blendC_0, blendC_0, blendC_0]

/-- The pixel equation of `paste`. -/
theorem paste_px (dst src : Img) (ox oy : Nat) (m : Nat → Nat → Nat) (x y : Nat) :
    (paste dst src ox oy m).px x y =
      if ox ≤ x ∧ x < ox + src.width ∧ oy ≤ y ∧ y < oy + src.height then
        blendPx (dst.px x y) (src.px (x - ox) (y - oy)) (m (x - ox) (y - oy))
      else dst.px x y := rfl

/-- Recoloring the solid red 372×372 image yields solid opaque white. -/
theorem recolor_scenarioA :
    recolor_to_white (constImg 372 372 ⟨255, 0, 0, 255⟩) =
      constImg 372 372 ⟨255, 255, 255, 255⟩ := by
  unfold recolor_to_white constImg
  exact Img.congr_px fun x y => by norm_num

/-- The fitted scenario-A logo has average color (255,0,0), which has
contrast ratio 1 against the red background. -/
theorem avgColor_scenarioA :
    avgColor (fit_logo redLogo 600 (62 / 100 : ℚ)) = (255, 0, 0) := by
  rw [fit_logo_scenarioA, avgColor_constImg 372 372 _ (by norm_num) (by norm_num)]
  rfl

/-- The card `cardA` unfolded: red rounded background pasted on a clear canvas,
then the recolored white 372×372 logo pasted at (114,114) through its
own (fully opaque) alpha channel. -/
theorem cardA_eq :
    cardA =
      paste
        (paste (constImg 600 600 ⟨0, 0, 0, 0⟩) (constImg 600 600 ⟨255, 0, 0, 255⟩) 0 0
          (rounded_mask 600 600 40))
        (constImg 372 372 ⟨255, 255, 255, 255⟩) 114 114
        (fun i j => ((constImg 372 372 ⟨255, 255, 255, 255⟩).px i j).a) := by
  show make_card redLogo (some (255, 0, 0)) 600 40 = _
  simp only [make_card]
  rw [avgColor_scenarioA, contrast_ratio_self, if_pos (show (1 : ℝ) < 2.5 by norm_num)]
  rw [fit_logo_scenarioA, recolor_scenarioA]
  norm_num [constImg]

/-- C1: on the 100×100 solid-red fully opaque logo with background
(255,0,0), canvas 600, radius 40 and max ratio 0.62, `make_card` fits
the logo to 372×372, finds contrast ratio 1 (< 2.5) between the fitted
logo's average color and the background, recolors the logo to white, and
pastes it at offset (114,114): every card pixel inside the 372×372
square at (114,114) is opaque white, and every pixel outside it is the
opaque red rounded-rectangle background (transparent in the corner
cutouts). -/
theorem make_card_scenarioA :
    (fit_logo redLogo 600 (62 / 100 : ℚ)).width = 372 ∧
    (fit_logo redLogo 600 (62 / 100 : ℚ)).height = 372 ∧
    contrast_ratio' (avgColor (fit_logo redLogo 600 (62 / 100 : ℚ))) (255, 0, 0) < 2.5 ∧
    cardA.width = 600 ∧ cardA.height = 600 ∧
    ∀ x y, x < 600 → y < 600 →
      cardA.px x y =
        if 114 ≤ x ∧ x < 486 ∧ 114 ≤ y ∧ y < 486 then ⟨255, 255, 255, 255⟩
        else if insideRounded 600 600 40 x y then ⟨255, 0, 0, 255⟩
        else ⟨0, 0, 0, 0⟩ := by
  refine ⟨by rw [fit_logo_scenarioA]; rfl, by rw [fit_logo_scenarioA]; rfl,
    by rw [avgColor_scenarioA, contrast_ratio_self]; norm_num,
    by rw [cardA_eq]; rfl, by rw [cardA_eq]; rfl, ?_⟩
  intro x y hx hy
  rw [cardA_eq, paste_px]
  by_cases hin : 114 ≤ x ∧ x < 486 ∧ 114 ≤ y ∧ y < 486
  · rw [if_pos (by simp only [constImg]; omega), if_pos hin]
    rw [show ((constImg 372 372 ⟨255, 255, 255, 255⟩).px (x - 114) (y - 114)) =
      ⟨255, 255, 255, 255⟩ from rfl]
    exact blendPx_255 _ _
  · rw [if_neg (by simp only [constImg]; omega), if_neg hin, paste_px,
      if_pos (by simp only [constImg]; omega)]
    show blendPx ⟨0, 0, 0, 0⟩ ⟨255, 0, 0, 255⟩ (rounded_mask 600 600 40 x y) = _
    by_cases hround : insideRounded 600 600 40 x y
    · rw [show rounded_mask 600 600 40 x y = 255 from by simp [rounded_mask, hround],
        if_pos hround]
      exact blendPx_255 _ _
    · rw [show rounded_mask 600 600 40 x y = 0 from by simp [rounded_mask, hround],
        if_neg hround]
      exact blendPx_0 _ _

/-- Witness for C1: sample points of the three regions of the finished
card — logo interior, background interior, corner cutout. -/
theorem make_card_scenarioA_witness :
    cardA.px 300 300 = ⟨255, 255, 255, 255⟩ ∧
    cardA.px 50 300 = ⟨255, 0, 0, 255⟩ ∧
    cardA.px 0 0 = ⟨0, 0, 0, 0⟩ := by
  have h := make_card_scenarioA
  have h1 := h.2.2.2.2.2 300 300 (by norm_num) (by norm_num)
  have h2 := h.2.2.2.2.2 50 300 (by norm_num) (by norm_num)
  have h3 := h.2.2.2.2.2 0 0 (by norm_num) (by norm_num)
  refine ⟨?_, ?_, ?_⟩
  · rw [h1, if_pos (by omega)]
  · rw [h2, if_neg (by omega), if_pos (by decide)]
  · rw [h3, if_neg (by omega), if_neg (by decide)]

end BrandCards
